import Mathlib

/-!
Shallow embedding of the drawing-command history core of the paint
application (source file src/main.ts) and proofs of the specified
properties: history stack discipline (append, undo, redo, clear), the
command variants (marker line, sticker) with their drag and display
behavior as traces of canvas context calls, the render pipeline, and the
interaction state machine driven by external input events.
-/

set_option autoImplicit false

namespace Paint

/-- Point recorded from the cursor, in canvas-local coordinates. -/
structure Point where
  x : Int
  y : Int
  deriving DecidableEq, Repr

/-- Payload of a draw command: a marker line owns its recorded points and
a fixed thickness; a sticker owns its glyph and a single current point. -/
inductive CommandData where
  | markerLine (points : List Point) (thickness : Nat)
  | sticker (emoji : String) (current : Point)
  deriving DecidableEq, Repr

/-- A draw command instance. The id field models JavaScript object
identity: it is assigned once at creation and never changed, so two
commands are the same instance exactly when they are equal, id included. -/
structure Command where
  id : Nat
  data : CommandData
  deriving DecidableEq, Repr

/-- Embeds the drag methods returned by createMarkerLine and
createStickerCommand: a marker pushes the new point onto its list, a
sticker overwrites its current point. The id is untouched, since dragging
mutates the existing instance and never creates a new one. -/
def drag (c : Command) (p : Point) : Command :=
  ⟨c.id,
    match c.data with
    | .markerLine points thickness => .markerLine (points ++ [p]) thickness
    | .sticker emoji _ => .sticker emoji p⟩

/-- Embeds DrawingModel: the commands array and the redoStack array. -/
structure DrawingModel where
  commands : List Command
  redoStack : List Command
  deriving DecidableEq, Repr

/-- Embeds the undo button listener of attachUndoRedoHandlers: pop the
last element of commands; if the pop yielded nothing, return with no
change; otherwise push the popped command onto redoStack. -/
def undo (m : DrawingModel) : DrawingModel :=
  match m.commands.getLast? with
  | none => m
  | some c => ⟨m.commands.dropLast, m.redoStack ++ [c]⟩

/-- Embeds the redo button listener of attachUndoRedoHandlers: pop the
last element of redoStack; if the pop yielded nothing, return with no
change; otherwise push the popped command onto commands. -/
def redo (m : DrawingModel) : DrawingModel :=
  match m.redoStack.getLast? with
  | none => m
  | some c => ⟨m.commands ++ [c], m.redoStack.dropLast⟩

/-- Embeds the model mutation performed by startDrawing: the redoStack is
reset to length zero and the new command is pushed onto commands. -/
def append (m : DrawingModel) (c : Command) : DrawingModel :=
  ⟨m.commands ++ [c], []⟩

/-- Embeds the clear button listener of attachClearHandler: both arrays
are reset to length zero unconditionally. -/
def clearAll (_m : DrawingModel) : DrawingModel :=
  ⟨[], []⟩

/-- Folds append over a list of commands, modeling a run of gesture
starts. -/
def appendAll (m : DrawingModel) (cs : List Command) : DrawingModel :=
  cs.foldl append m

/-- One call to a method of the 2D canvas context; traces of these record
what a render emits. The arc constructor stores the radius as a rational
and its two angle arguments in units of pi, matching arc(x, y, r, 0,
Math.PI * 2) in the source. -/
inductive DrawCall where
  | clearRect (x y w h : Int)
  | save
  | restore
  | lineWidth (w : ℚ)
  | lineCap (cap : String)
  | strokeStyle (style : String)
  | beginPath
  | moveTo (x y : Int)
  | lineTo (x y : Int)
  | stroke
  | closePath
  | arc (x y : Int) (r : ℚ) (startPi endPi : ℚ)
  | font (f : String)
  | textAlign (a : String)
  | textBaseline (b : String)
  | fillText (text : String) (x y : Int)
  | globalAlpha (a : ℚ)
  deriving DecidableEq, Repr

/-- Constant STICKER_FONT of the source. -/
def STICKER_FONT : String := "32px serif"

/-- Embeds the display closure of createMarkerLine: an empty point list
emits nothing; otherwise styling is applied, the path starts at the first
point, a single recorded point yields a segment back to itself, further
points each extend the path, and the path is stroked. -/
def markerDisplay (points : List Point) (thickness : Nat) : List DrawCall :=
  match points with
  | [] => []
  | first :: rest =>
    [.save, .lineWidth (thickness : ℚ), .lineCap "round",
     .strokeStyle "#111827", .beginPath, .moveTo first.x first.y] ++
    (if rest.isEmpty then [.lineTo first.x first.y]
     else rest.map fun p => .lineTo p.x p.y) ++
    [.stroke, .closePath, .restore]

/-- Embeds the display closure of createStickerCommand: the glyph is
filled exactly once, at the current point. -/
def stickerDisplay (emoji : String) (current : Point) : List DrawCall :=
  [.save, .font STICKER_FONT, .textAlign "center", .textBaseline "middle",
   .fillText emoji current.x current.y, .restore]

/-- Trace emitted by the display method of a command. -/
def displayCalls (c : Command) : List DrawCall :=
  match c.data with
  | .markerLine points thickness => markerDisplay points thickness
  | .sticker emoji current => stickerDisplay emoji current

/-- Render-only hover hint: a marker outline or a ghosted sticker. -/
inductive PreviewData where
  | marker (p : Point) (thickness : Nat)
  | stickerGhost (emoji : String) (p : Point)
  deriving DecidableEq, Repr

/-- Embeds the draw closures of createMarkerPreview and
createStickerPreview. -/
def previewDraw : PreviewData → List DrawCall
  | .marker p thickness =>
    [.save, .strokeStyle "#9CA3AF", .lineWidth 1, .beginPath,
     .arc p.x p.y ((thickness : ℚ) / 2) 0 2, .stroke, .restore]
  | .stickerGhost emoji p =>
    [.save, .globalAlpha ((65 : ℚ) / 100), .font STICKER_FONT,
     .textAlign "center", .textBaseline "middle",
     .fillText emoji p.x p.y, .restore]

/-- Embeds the render closure of attachDrawingObserver: clear the whole
surface, then forEach over commands lets each display itself into the
shared context, then the preview draws last when one is active. -/
def render (w h : Int) (model : DrawingModel)
    (preview : Option PreviewData) : List DrawCall :=
  let afterCommands :=
    model.commands.foldl (fun trace c => trace ++ displayCalls c)
      [DrawCall.clearRect 0 0 w h]
  match preview with
  | some pv => afterCommands ++ previewDraw pv
  | none => afterCommands

/-- Folds drag over a list of points, modeling a run of move events
routed to one command during a gesture. -/
def dragAll (c : Command) (ps : List Point) : Command :=
  ps.foldl drag c

/-- Recognizes the fillText calls of a trace. -/
def isFillText : DrawCall → Bool
  | .fillText _ _ _ => true
  | _ => false

/-- Marker or sticker tool configuration, as selected by the buttons. -/
inductive PaintTool where
  | marker (thickness : Nat)
  | sticker (emoji : String)
  deriving DecidableEq, Repr

/-- Constant THIN_MARKER_THICKNESS of the source. -/
def THIN_MARKER_THICKNESS : Nat := 4

/-- Constant THICK_MARKER_THICKNESS of the source. -/
def THICK_MARKER_THICKNESS : Nat := 10

/-- Embeds the tool dispatch of updatePreview: the preview a pointer
position produces under the active tool. -/
def previewFor (tool : PaintTool) (p : Point) : PreviewData :=
  match tool with
  | .marker thickness => .marker p thickness
  | .sticker emoji => .stickerGhost emoji p

/-- Whole interactive state: the drawing model, the isDrawing flag of
InteractionState, the active slot of ToolPreviewState, the selected tool
of ToolSelection, and a counter supplying fresh instance ids for newly
created commands. -/
structure AppState where
  model : DrawingModel
  isDrawing : Bool
  previewActive : Option PreviewData
  activeTool : PaintTool
  nextId : Nat
  deriving DecidableEq, Repr

/-- State as set up by main: empty model, not drawing, no preview, thin
marker selected by the initial chooseTool call. -/
def initialState : AppState :=
  ⟨⟨[], []⟩, false, none, .marker THIN_MARKER_THICKNESS, 0⟩

/-- External input events reaching the core: canvas mouse events, tool
selection, and the undo, redo and clear button activations. -/
inductive InputEvent where
  | mousedown (p : Point)
  | mousemove (p : Point)
  | mouseup
  | mouseleave
  | selectTool (t : PaintTool)
  | undoClick
  | redoClick
  | clearClick
  deriving DecidableEq, Repr

/-- Embeds startDrawing: set the drawing flag, hide the hover preview,
reset the redo stack and push a fresh command built from the active tool;
the redo reset plus push is exactly append. -/
def startDrawing (s : AppState) (p : Point) : AppState :=
  let cmd : Command :=
    match s.activeTool with
    | .marker thickness => ⟨s.nextId, .markerLine [p] thickness⟩
    | .sticker emoji => ⟨s.nextId, .sticker emoji p⟩
  { s with isDrawing := true, previewActive := none,
           model := append s.model cmd, nextId := s.nextId + 1 }

/-- Embeds continueStroke: a no-op unless the drawing flag is set; when
set it reads the last element of commands and drags it. Reading the last
element of an empty array yields undefined in the source and the drag
call then throws, which is modeled as none. -/
def continueStroke (s : AppState) (p : Point) : Option AppState :=
  if s.isDrawing then
    match s.model.commands.getLast? with
    | none => none
    | some c =>
      some { s with model := ⟨s.model.commands.dropLast ++ [drag c p],
                              s.model.redoStack⟩ }
  else
    some s

/-- Embeds updatePreview of attachToolPreview: while drawing the preview
is forced to none; otherwise the preview for the active tool at the
pointer position is installed. -/
def updatePreview (s : AppState) (p : Point) : AppState :=
  if s.isDrawing then { s with previewActive := none }
  else { s with previewActive := some (previewFor s.activeTool p) }

/-- One external event processed by every listener registered on it, in
registration order: a move runs continueStroke then updatePreview; a
leave runs stopDrawing then clearPreview; a tool selection stores the
tool and hides the preview; the button clicks run their model handlers. -/
def step (s : AppState) : InputEvent → Option AppState
  | .mousedown p => some (startDrawing s p)
  | .mousemove p => (continueStroke s p).map (fun s1 => updatePreview s1 p)
  | .mouseup => some { s with isDrawing := false }
  | .mouseleave => some { s with isDrawing := false, previewActive := none }
  | .selectTool t => some { s with activeTool := t, previewActive := none }
  | .undoClick => some { s with model := undo s.model }
  | .redoClick => some { s with model := redo s.model }
  | .clearClick => some { s with model := clearAll s.model }

/-- Runs a sequence of external events; none records that some handler
faulted along the way. -/
def processEvents (s : AppState) : List InputEvent → Option AppState
  | [] => some s
  | ev :: evs =>
    match step s ev with
    | none => none
    | some s1 => processEvents s1 evs

/-- Event sequences a plain mouse interaction can produce: undo and clear
clicks happen only while no press is in flight. The Boolean argument
tracks whether a press is currently open. -/
def gestureSafe : Bool → List InputEvent → Bool
  | _, [] => true
  | _, .mousedown _ :: evs => gestureSafe true evs
  | _, .mouseup :: evs => gestureSafe false evs
  | _, .mouseleave :: evs => gestureSafe false evs
  | pressed, .undoClick :: evs => !pressed && gestureSafe pressed evs
  | pressed, .clearClick :: evs => !pressed && gestureSafe pressed evs
  | pressed, _ :: evs => gestureSafe pressed evs

end Paint

namespace Paint

theorem undo_empty (m : DrawingModel) (h : m.commands = []) :
    undo m = m := by
  simp [undo, h]

theorem undo_concat (m : DrawingModel) (l : List Command) (c : Command)
    (h : m.commands = l ++ [c]) :
    undo m = ⟨l, m.redoStack ++ [c]⟩ := by
  simp [undo, h]

theorem redo_empty (m : DrawingModel) (h : m.redoStack = []) :
    redo m = m := by
  simp [redo, h]

theorem redo_concat (m : DrawingModel) (l : List Command) (c : Command)
    (h : m.redoStack = l ++ [c]) :
    redo m = ⟨m.commands ++ [c], l⟩ := by
  simp [redo, h]

/-- C1: undo removes exactly the last command of the commands list and
pushes it onto redoStack, and is a no-op when commands is empty; redo
removes exactly the last element of redoStack and pushes it onto
commands, and is a no-op when redoStack is empty. -/
theorem undo_redo_pop_push (m : DrawingModel) :
    (m.commands = [] → undo m = m) ∧
    (∀ l c, m.commands = l ++ [c] → undo m = ⟨l, m.redoStack ++ [c]⟩) ∧
    (m.redoStack = [] → redo m = m) ∧
    (∀ l c, m.redoStack = l ++ [c] → redo m = ⟨m.commands ++ [c], l⟩) :=
  ⟨undo_empty m, fun l c h => undo_concat m l c h,
   redo_empty m, fun l c h => redo_concat m l c h⟩

/-- Witness for C1 at concrete two-command and one-command states. -/
theorem undo_redo_pop_push_witness :
    undo ⟨[⟨0, .markerLine [⟨1, 2⟩] 4⟩, ⟨1, .sticker "A" ⟨3, 4⟩⟩], []⟩ =
      ⟨[⟨0, .markerLine [⟨1, 2⟩] 4⟩], [⟨1, .sticker "A" ⟨3, 4⟩⟩]⟩ ∧
    redo ⟨[], [⟨1, .sticker "A" ⟨3, 4⟩⟩]⟩ =
      ⟨[⟨1, .sticker "A" ⟨3, 4⟩⟩], []⟩ :=
  ⟨(undo_redo_pop_push _).2.1 [⟨0, .markerLine [⟨1, 2⟩] 4⟩]
      ⟨1, .sticker "A" ⟨3, 4⟩⟩ rfl,
   (undo_redo_pop_push _).2.2.2 [] ⟨1, .sticker "A" ⟨3, 4⟩⟩ rfl⟩

/-- C2: append pushes the new command to the end of commands and leaves
redoStack empty whatever it held before, the empty case included; in
particular appending after any number of undos leaves redoStack empty. -/
theorem append_clears_redo (m : DrawingModel) (c : Command) (n : Nat) :
    append m c = ⟨m.commands ++ [c], []⟩ ∧
    (append (undo^[n] m) c).redoStack = [] :=
  ⟨rfl, rfl⟩

/-- C3: append of c, then undo, then redo restores the model exactly to
the state right after the append, and the last element of commands after
the redo is the same command instance as c: equal id and equal recorded
data, so the instance round-trips with its points intact rather than
being reconstructed. -/
theorem append_undo_redo_roundtrip (m : DrawingModel) (c : Command) :
    redo (undo (append m c)) = append m c ∧
    (redo (undo (append m c))).commands.getLast? = some c := by
  have h1 : undo (append m c) = ⟨m.commands, [c]⟩ := by
    simp [undo, append]
  have h2 : redo (⟨m.commands, [c]⟩ : DrawingModel) =
      ⟨m.commands ++ [c], []⟩ := by
    simp [redo]
  refine ⟨by rw [h1, h2]; rfl, ?_⟩
  rw [h1, h2]
  simp

theorem appendAll_run (cs : List Command) :
    ∀ (l r : List Command),
      appendAll ⟨l, r⟩ cs = ⟨l ++ cs, if cs.isEmpty then r else []⟩ := by
  induction cs with
  | nil => intro l r; simp [appendAll]
  | cons c cs ih =>
    intro l r
    have h : appendAll ⟨l, r⟩ (c :: cs) = appendAll ⟨l ++ [c], []⟩ cs := rfl
    rw [h, ih]
    cases cs <;> simp

theorem undo_iterate (cs : List Command) :
    ∀ (r : List Command),
      undo^[cs.length] ⟨cs, r⟩ = ⟨[], r ++ cs.reverse⟩ := by
  induction cs using List.reverseRecOn with
  | nil => intro r; simp
  | append_singleton l c ih =>
    intro r
    have hlen : (l ++ [c]).length = l.length + 1 := by simp
    have hstep : undo ⟨l ++ [c], r⟩ = ⟨l, r ++ [c]⟩ := by
      simp [undo]
    rw [hlen, Function.iterate_succ_apply, hstep, ih]
    simp

/-- C4: starting from the empty history, N appends followed by N undos
leave commands empty and redoStack holding all N commands in reverse
creation order; the last created command is undone first, so it sits at
position zero, the bottom of the push-at-the-end stack, and the first
created command is at the end, the next to be popped by a redo. -/
theorem n_appends_n_undos (cs : List Command) :
    undo^[cs.length] (appendAll ⟨[], []⟩ cs) = ⟨[], cs.reverse⟩ := by
  have h : appendAll ⟨[], []⟩ cs = ⟨cs, []⟩ := by
    rw [appendAll_run]
    cases cs <;> simp
  rw [h, undo_iterate]
  simp

/-- C5: undo on empty commands and redo on empty redoStack are defined
no-ops returning the state unchanged; clearAll empties both lists
unconditionally; and clearAll followed by undo leaves both lists empty. -/
theorem empty_stack_noop (m : DrawingModel) :
    (m.commands = [] → undo m = m) ∧
    (m.redoStack = [] → redo m = m) ∧
    clearAll m = ⟨[], []⟩ ∧
    undo (clearAll m) = ⟨[], []⟩ :=
  ⟨undo_empty m, redo_empty m, rfl, rfl⟩

/-- Witness for C5 at the empty model. -/
theorem empty_stack_noop_witness :
    undo ⟨[], []⟩ = (⟨[], []⟩ : DrawingModel) ∧
    redo ⟨[], []⟩ = (⟨[], []⟩ : DrawingModel) ∧
    clearAll ⟨[], []⟩ = (⟨[], []⟩ : DrawingModel) ∧
    undo (clearAll ⟨[], []⟩) = (⟨[], []⟩ : DrawingModel) :=
  ⟨(empty_stack_noop ⟨[], []⟩).1 rfl,
   (empty_stack_noop ⟨[], []⟩).2.1 rfl,
   (empty_stack_noop ⟨[], []⟩).2.2.1,
   (empty_stack_noop ⟨[], []⟩).2.2.2⟩

theorem foldl_display_trace (cs : List Command) :
    ∀ (init : List DrawCall),
      cs.foldl (fun trace c => trace ++ displayCalls c) init =
        init ++ cs.flatMap displayCalls := by
  induction cs with
  | nil => intro init; simp
  | cons c cs ih => intro init; simp [List.foldl_cons, ih]

/-- C6: one render invocation emits exactly the full-surface clear, then
the display trace of every command of the model in list order, then the
preview trace last when a preview is present; and a second invocation on
the same unmutated state emits the identical trace. -/
theorem render_order_and_idempotent (w h : Int) (m : DrawingModel)
    (pv : Option PreviewData) :
    render w h m pv =
      DrawCall.clearRect 0 0 w h ::
        (m.commands.flatMap displayCalls ++ pv.elim [] previewDraw) ∧
    render w h m pv = render w h m pv := by
  refine ⟨?_, rfl⟩
  cases pv <;> simp [render, foldl_display_trace]

/-- C7: displaying a marker line holding exactly one point emits a stroke
whose path moves to that point and draws a zero-length segment back to
the same point, a visible dot, never an empty trace. -/
theorem single_point_marker_dot (i : Nat) (p : Point) (t : Nat) :
    displayCalls ⟨i, .markerLine [p] t⟩ =
      [.save, .lineWidth (t : ℚ), .lineCap "round", .strokeStyle "#111827",
       .beginPath, .moveTo p.x p.y, .lineTo p.x p.y, .stroke, .closePath,
       .restore] ∧
    displayCalls ⟨i, .markerLine [p] t⟩ ≠ [] := by
  constructor
  · simp [displayCalls, markerDisplay]
  · simp [displayCalls, markerDisplay]

theorem dragAll_sticker (ps : List Point) :
    ∀ (i : Nat) (e : String) (p0 : Point),
      dragAll ⟨i, .sticker e p0⟩ ps =
        ⟨i, .sticker e (ps.getLast?.getD p0)⟩ := by
  induction ps with
  | nil => intro i e p0; rfl
  | cons q qs ih =>
    intro i e p0
    have h : dragAll ⟨i, .sticker e p0⟩ (q :: qs) =
        dragAll ⟨i, .sticker e q⟩ qs := rfl
    rw [h, ih]
    cases qs with
    | nil => simp
    | cons a l =>
      obtain ⟨x, hx⟩ := Option.isSome_iff_exists.mp
        (List.getLast?_isSome.mpr (by simp : (a :: l : List Point) ≠ []))
      rw [List.getLast?_cons_cons, hx]
      simp

/-- C8: each drag overwrites the single current point of a sticker, never
appending, so after any drag sequence the command is the same instance
holding only the last dragged position (the creation point when no drag
occurred), and its display trace fills the glyph exactly once, at that
current point, with no mark at any earlier position. -/
theorem sticker_drag_overwrites (i : Nat) (e : String) (p0 : Point)
    (ps : List Point) :
    dragAll ⟨i, .sticker e p0⟩ ps =
      ⟨i, .sticker e (ps.getLast?.getD p0)⟩ ∧
    displayCalls (dragAll ⟨i, .sticker e p0⟩ ps) =
      [.save, .font STICKER_FONT, .textAlign "center",
       .textBaseline "middle",
       .fillText e (ps.getLast?.getD p0).x (ps.getLast?.getD p0).y,
       .restore] ∧
    (displayCalls (dragAll ⟨i, .sticker e p0⟩ ps)).filter isFillText =
      [.fillText e (ps.getLast?.getD p0).x (ps.getLast?.getD p0).y] := by
  refine ⟨dragAll_sticker ps i e p0, ?_, ?_⟩
  · rw [dragAll_sticker]
    rfl
  · rw [dragAll_sticker]
    simp [displayCalls, stickerDisplay, isFillText]

theorem startDrawing_parts (s : AppState) (p : Point) :
    (startDrawing s p).isDrawing = true ∧
    (startDrawing s p).previewActive = none ∧
    (startDrawing s p).model.commands ≠ [] := by
  cases h : s.activeTool <;> simp [startDrawing, append, h]

theorem continueStroke_some (s s1 : AppState) (p : Point)
    (h : continueStroke s p = some s1) :
    s1.isDrawing = s.isDrawing ∧ s1.previewActive = s.previewActive ∧
      (s.isDrawing = true → s1.model.commands ≠ []) ∧
      (s.isDrawing = false → s1 = s) := by
  unfold continueStroke at h
  by_cases hd : s.isDrawing = true
  · rw [if_pos hd] at h
    cases hc : s.model.commands.getLast? with
    | none => rw [hc] at h; exact absurd h (by simp)
    | some c =>
      rw [hc] at h
      obtain rfl : _ = s1 := Option.some.inj h
      refine ⟨rfl, rfl, fun _ => by simp, fun hfalse => ?_⟩
      rw [hd] at hfalse
      exact absurd hfalse (by simp)
  · rw [if_neg hd] at h
    obtain rfl : s = s1 := Option.some.inj h
    exact ⟨rfl, rfl, fun htrue => absurd htrue hd, fun _ => rfl⟩

theorem continueStroke_total (s : AppState) (p : Point)
    (h : s.isDrawing = true → s.model.commands ≠ []) :
    ∃ s1, continueStroke s p = some s1 := by
  unfold continueStroke
  by_cases hd : s.isDrawing = true
  · obtain ⟨c, hc⟩ := Option.isSome_iff_exists.mp
      (List.getLast?_isSome.mpr (h hd))
    rw [hd, hc]
    exact ⟨_, rfl⟩
  · simp only [Bool.not_eq_true] at hd
    rw [hd]
    exact ⟨s, rfl⟩

theorem updatePreview_parts (s : AppState) (p : Point) :
    (updatePreview s p).model = s.model ∧
    (updatePreview s p).isDrawing = s.isDrawing ∧
    (s.isDrawing = true → (updatePreview s p).previewActive = none) := by
  unfold updatePreview
  split
  · exact ⟨rfl, rfl, fun _ => rfl⟩
  · rename_i hd
    exact ⟨rfl, rfl, fun htrue => absurd htrue hd⟩

theorem step_preview_inv (s s1 : AppState) (ev : InputEvent)
    (hs : s.isDrawing = true → s.previewActive = none)
    (h : step s ev = some s1) :
    s1.isDrawing = true → s1.previewActive = none := by
  cases ev with
  | mousedown p =>
    obtain rfl : startDrawing s p = s1 := Option.some.inj h
    exact fun _ => (startDrawing_parts s p).2.1
  | mousemove p =>
    simp only [step] at h
    obtain ⟨s2, hs2, rfl⟩ := Option.map_eq_some'.mp h
    obtain ⟨hd2, _, _, _⟩ := continueStroke_some s s2 p hs2
    obtain ⟨_, hdU, hpU⟩ := updatePreview_parts s2 p
    intro hdrawing
    rw [hdU, hd2] at hdrawing
    exact (updatePreview_parts s2 p).2.2 (by rw [hd2]; exact hdrawing)
  | mouseup =>
    obtain rfl : _ = s1 := Option.some.inj h
    intro hdrawing
    exact absurd hdrawing (by simp)
  | mouseleave =>
    obtain rfl : _ = s1 := Option.some.inj h
    exact fun _ => rfl
  | selectTool t =>
    obtain rfl : _ = s1 := Option.some.inj h
    exact fun _ => rfl
  | undoClick =>
    obtain rfl : _ = s1 := Option.some.inj h
    exact fun hdrawing => hs hdrawing
  | redoClick =>
    obtain rfl : _ = s1 := Option.some.inj h
    exact fun hdrawing => hs hdrawing
  | clearClick =>
    obtain rfl : _ = s1 := Option.some.inj h
    exact fun hdrawing => hs hdrawing

theorem processEvents_preview_inv (evs : List InputEvent) :
    ∀ (s0 s : AppState),
      (s0.isDrawing = true → s0.previewActive = none) →
      processEvents s0 evs = some s →
      (s.isDrawing = true → s.previewActive = none) := by
  induction evs with
  | nil =>
    intro s0 s h0 h
    obtain rfl : s0 = s := Option.some.inj h
    exact h0
  | cons ev evs ih =>
    intro s0 s h0 h
    cases hstep : step s0 ev with
    | none =>
      rw [processEvents, hstep] at h
      exact absurd h (by simp)
    | some s1 =>
      rw [processEvents, hstep] at h
      exact ih s1 s (step_preview_inv s0 s1 ev h0 hstep) h

/-- C9: in every state reachable from the initial state by any sequence
of external events, the preview is none whenever the drawing flag is set:
the press transition hides the preview as it appends the new command, and
a move processed while gesturing forces the preview to none, so a preview
is only ever present while idle. -/
theorem gesturing_preview_none (evs : List InputEvent) (s : AppState)
    (h : processEvents initialState evs = some s)
    (hd : s.isDrawing = true) : s.previewActive = none :=
  processEvents_preview_inv evs initialState s (fun _ => rfl) h hd

/-- Witness for C9: a hover move installs a preview, the following press
reaches a gesturing state whose preview is none. -/
theorem gesturing_preview_none_witness :
    processEvents initialState
        [.mousemove ⟨3, 4⟩, .mousedown ⟨1, 2⟩] =
      some ⟨⟨[⟨0, .markerLine [⟨1, 2⟩] 4⟩], []⟩, true, none,
            .marker 4, 1⟩ ∧
    (⟨⟨[⟨0, .markerLine [⟨1, 2⟩] 4⟩], []⟩, true, none,
      .marker 4, 1⟩ : AppState).previewActive = none :=
  ⟨rfl,
   gesturing_preview_none [.mousemove ⟨3, 4⟩, .mousedown ⟨1, 2⟩]
     ⟨⟨[⟨0, .markerLine [⟨1, 2⟩] 4⟩], []⟩, true, none, .marker 4, 1⟩
     rfl rfl⟩

/-- C10 as stated is falsified on the code: a press, then an undo click
delivered while the press is still in flight, then a move, reaches
continueStroke with the drawing flag set and an empty commands array; the
read of the last array element yields undefined and the drag call on it
faults, modeled as none. -/
theorem move_while_drawing_counterexample :
    processEvents initialState
      [.mousedown ⟨0, 0⟩, .undoClick, .mousemove ⟨1, 1⟩] = none := rfl

theorem redo_preserves_nonempty (m : DrawingModel)
    (h : m.commands ≠ []) : (redo m).commands ≠ [] := by
  unfold redo
  cases hr : m.redoStack.getLast? <;> simp [h]

theorem processEvents_gestureSafe (evs : List InputEvent) :
    ∀ (s : AppState),
      gestureSafe s.isDrawing evs = true →
      (s.isDrawing = true → s.model.commands ≠ []) →
      ∃ s1, processEvents s evs = some s1 := by
  induction evs with
  | nil => intro s _ _; exact ⟨s, rfl⟩
  | cons ev evs ih =>
    intro s hsafe hinv
    cases ev with
    | mousedown p =>
      have hsafe1 : gestureSafe true evs = true := hsafe
      obtain ⟨hd, _, hcmds⟩ := startDrawing_parts s p
      obtain ⟨s1, hs1⟩ := ih (startDrawing s p) (by rw [hd]; exact hsafe1)
        (fun _ => hcmds)
      have hstep : step s (.mousedown p) = some (startDrawing s p) := rfl
      refine ⟨s1, ?_⟩
      rw [processEvents, hstep]
      exact hs1
    | mousemove p =>
      obtain ⟨s2, hs2⟩ := continueStroke_total s p hinv
      obtain ⟨hd2, _, hne2, hid2⟩ := continueStroke_some s s2 p hs2
      obtain ⟨hmU, hdU, _⟩ := updatePreview_parts s2 p
      have hstep : step s (.mousemove p) = some (updatePreview s2 p) := by
        simp only [step, hs2, Option.map_some']
      have hinv1 : (updatePreview s2 p).isDrawing = true →
          (updatePreview s2 p).model.commands ≠ [] := by
        intro hdrawing
        rw [hdU, hd2] at hdrawing
        rw [hmU]
        exact hne2 hdrawing
      obtain ⟨s1, hs1⟩ := ih (updatePreview s2 p)
        (by rw [hdU, hd2]; exact hsafe) hinv1
      refine ⟨s1, ?_⟩
      rw [processEvents, hstep]
      exact hs1
    | mouseup =>
      have hsafe1 : gestureSafe false evs = true := hsafe
      obtain ⟨s1, hs1⟩ := ih { s with isDrawing := false } hsafe1
        (fun hdrawing => absurd hdrawing (by simp))
      have hstep : step s .mouseup = some { s with isDrawing := false } := rfl
      refine ⟨s1, ?_⟩
      rw [processEvents, hstep]
      exact hs1
    | mouseleave =>
      have hsafe1 : gestureSafe false evs = true := hsafe
      obtain ⟨s1, hs1⟩ :=
        ih { s with isDrawing := false, previewActive := none } hsafe1
          (fun hdrawing => absurd hdrawing (by simp))
      have hstep : step s .mouseleave = some { s with isDrawing := false, previewActive := none } := rfl
      refine ⟨s1, ?_⟩
      rw [processEvents, hstep]
      exact hs1
    | selectTool t =>
      have hsafe1 : gestureSafe s.isDrawing evs = true := hsafe
      obtain ⟨s1, hs1⟩ :=
        ih { s with activeTool := t, previewActive := none } hsafe1 hinv
      have hstep : step s (.selectTool t) = some { s with activeTool := t, previewActive := none } := rfl
      refine ⟨s1, ?_⟩
      rw [processEvents, hstep]
      exact hs1
    | undoClick =>
      have hsplit : (!s.isDrawing && gestureSafe s.isDrawing evs) = true :=
        hsafe
      rw [Bool.and_eq_true] at hsplit
      obtain ⟨hnp, hsafe1⟩ := hsplit
      have hd : s.isDrawing = false := by
        cases hval : s.isDrawing
        · rfl
        · rw [hval] at hnp; exact absurd hnp (by simp)
      obtain ⟨s1, hs1⟩ := ih { s with model := undo s.model } hsafe1
        (fun hdrawing => by
          rw [show ({ s with model := undo s.model } : AppState).isDrawing = s.isDrawing from rfl, hd] at hdrawing
          exact absurd hdrawing (by simp))
      have hstep : step s .undoClick = some { s with model := undo s.model } := rfl
      refine ⟨s1, ?_⟩
      rw [processEvents, hstep]
      exact hs1
    | redoClick =>
      have hsafe1 : gestureSafe s.isDrawing evs = true := hsafe
      obtain ⟨s1, hs1⟩ := ih { s with model := redo s.model } hsafe1
        (fun hdrawing => redo_preserves_nonempty s.model (hinv hdrawing))
      have hstep : step s .redoClick = some { s with model := redo s.model } := rfl
      refine ⟨s1, ?_⟩
      rw [processEvents, hstep]
      exact hs1
    | clearClick =>
      have hsplit : (!s.isDrawing && gestureSafe s.isDrawing evs) = true :=
        hsafe
      rw [Bool.and_eq_true] at hsplit
      obtain ⟨hnp, hsafe1⟩ := hsplit
      have hd : s.isDrawing = false := by
        cases hval : s.isDrawing
        · rfl
        · rw [hval] at hnp; exact absurd hnp (by simp)
      obtain ⟨s1, hs1⟩ := ih { s with model := clearAll s.model } hsafe1
        (fun hdrawing => by
          rw [show ({ s with model := clearAll s.model } : AppState).isDrawing = s.isDrawing from rfl, hd] at hdrawing
          exact absurd hdrawing (by simp))
      have hstep : step s .clearClick = some { s with model := clearAll s.model } := rfl
      refine ⟨s1, ?_⟩
      rw [processEvents, hstep]
      exact hs1

/-- C10 amended: for every event sequence in which undo and clear clicks
are delivered only while no press is in flight, processing from the
initial state never faults: every move handled while the drawing flag is
set finds a non-empty commands array, so the read of its last element
succeeds and drag is applied to an actual command. -/
theorem move_while_drawing_safe (evs : List InputEvent)
    (h : gestureSafe false evs = true) :
    ∃ s, processEvents initialState evs = some s :=
  processEvents_gestureSafe evs initialState h
    (fun hd => Bool.noConfusion hd)

/-- Witness for the amended C10: a full gesture with a move, then an undo
delivered while idle, then another hover move, processes without fault. -/
theorem move_while_drawing_safe_witness :
    gestureSafe false
      [.mousedown ⟨0, 0⟩, .mousemove ⟨5, 5⟩, .mouseup, .undoClick,
       .mousemove ⟨6, 6⟩] = true ∧
    ∃ s, processEvents initialState
      [.mousedown ⟨0, 0⟩, .mousemove ⟨5, 5⟩, .mouseup, .undoClick,
       .mousemove ⟨6, 6⟩] = some s :=
  ⟨rfl,
   move_while_drawing_safe
     [.mousedown ⟨0, 0⟩, .mousemove ⟨5, 5⟩, .mouseup, .undoClick,
      .mousemove ⟨6, 6⟩] rfl⟩

end Paint
